import Mathlib

/-!
Formal model of the Neurotoolbox statistical pipeline.

The repository consists of three orchestration scripts
(`scripts/run_asymmetry.py`, `scripts/run_followups.py`,
`scripts/run_multivariate.py`) that call into the `neurotoolbox`
statistics library.  The scripts are embedded here directly from their
source; the library functions they call are not part of the visible
source tree, so they are modelled from the written specification
(each such definition carries a doc comment starting with
"Modelled from the spec:").

Conventions of the embedding: tabular data is rational-valued with
explicit missingness (`Option ℚ`); a row of a data frame is a lookup
from column name to `Option ℚ`; machine floating point is idealised as
exact rational (and, where a square root is required, real) arithmetic.
-/

namespace Neuro

/-! ## Asymmetry engine (spec 4.1) -/

/-- Modelled from the spec: the per-row, per-pair asymmetry value of
`compute_ai` under the half-sum normalization method (`method="halfnorm"`):
`(L - R) / ((L + R) / 2)`, missing when either side is missing or the
half-sum denominator is exactly zero (so division by zero never happens). -/
def aiHalfnorm (l r : Option ℚ) : Option ℚ :=
  match l, r with
  | some a, some b => if (a + b) / 2 = 0 then none else some ((a - b) / ((a + b) / 2))
  | _, _ => none

/-- Modelled from the spec: the list of per-pair asymmetry values of one row,
one entry per ROI pair `(L, R)`, looked up in the row by column name. -/
def aiRow (row : String → Option ℚ) (pairs : List (String × String)) : List (Option ℚ) :=
  pairs.map fun pr => aiHalfnorm (row pr.1) (row pr.2)

/-- Modelled from the spec: the composite asymmetry of one row, the mean of
the per-pair asymmetry values ignoring missing entries; missing when every
per-pair value is missing. -/
def compositeAI (vals : List (Option ℚ)) : Option ℚ :=
  let present := vals.filterMap id
  if present.isEmpty then none else some (present.sum / present.length)

/-! ## Robustness battery: permutation test (spec 4.5) -/

/-- Modelled from the spec: the two-sided p-value of `permutation_test_corr`.
The seeded shuffles of `y` and the Pearson statistic computed on each are
abstracted as the list `nullStats` of permuted correlation statistics;
`rObs` is the observed correlation.  The p-value is the fraction of permuted
statistics at least as extreme (in absolute value) as the observed one,
with the `+1/(N+1)` smoothing that also counts the observed statistic. -/
def permPValue (rObs : ℚ) (nullStats : List ℚ) : ℚ :=
  ((nullStats.countP fun s => |rObs| ≤ |s|) + 1 : ℚ) / (nullStats.length + 1)

/-! ## Multiple-comparison corrector (spec 4.4) -/

/-- Modelled from the spec: the ascending-sort rank of a p-value within its
correction group, computed as the number of group p-values at most `p`. -/
def bhRank (ps : List ℚ) (p : ℚ) : ℕ :=
  ps.countP fun r => r ≤ p

/-- Modelled from the spec: the monotone q-value of `add_corrections`
consistent with the rank-based FDR procedure: the step-up quantity
`min(1, min over group p-values r at least p of r * groupSize / rank(r))`. -/
def qvalue (ps : List ℚ) (p : ℚ) : ℚ :=
  ((ps.filter fun r => p ≤ r).map fun r => r * ps.length / bhRank ps r).foldr min 1

/-- One regression record entering `add_corrections`: its correction-group
keys (Outcome, Model) and its p-value, possibly missing. -/
structure PRec where
  outcome : String
  model : String
  p : Option ℚ
deriving DecidableEq

/-- One corrected record leaving `add_corrections`: the original fields plus
the q-value, missing exactly when the p-value is missing. -/
structure QRec where
  outcome : String
  model : String
  p : Option ℚ
  q : Option ℚ
deriving DecidableEq

/-- Modelled from the spec: the p-values of the correction group with keys
`(o, m)`; records with missing p-values are excluded from the correction
computation. -/
def groupPs (rs : List PRec) (o m : String) : List ℚ :=
  rs.filterMap fun r => if r.outcome = o ∧ r.model = m then r.p else none

/-- Modelled from the spec: `add_corrections` grouped by (Outcome, Model):
every record receives the q-value computed from the p-values of its own
group; records with missing p-values keep a missing q-value. -/
def addCorrections (rs : List PRec) : List QRec :=
  rs.map fun r =>
    ⟨r.outcome, r.model, r.p, r.p.map fun p => qvalue (groupPs rs r.outcome r.model) p⟩

/-- A concrete two-record input for `add_corrections`, one correction group. -/
def fdrExample : List PRec :=
  [⟨"o", "m", some (1 / 100)⟩, ⟨"o", "m", some (1 / 10)⟩]

/-! ## Regression family engine (spec 4.3) -/

/-- One record emitted by `run_family` for one (outcome, model family,
target predictor) combination; `stats` holds (Beta, CI, p) summary numbers
and is `none` when the fit failed numerically and the statistic fields are
missing. -/
structure RegRecord where
  outcome : String
  model : String
  target : String
  stats : Option (ℚ × ℚ × ℚ)
deriving DecidableEq

/-- Modelled from the spec: `run_family` fits one regression per
(outcome × predictor-set × predictor) combination and emits exactly one
record for each.  The numerical fit itself (OLS on the complete cases of the
combination) is abstracted as `fit`, which returns `none` on numerical
failure (rank-deficient design, below-minimum sample size); a failure is
recorded as missing statistics rather than raised, so it never aborts the
remaining combinations. -/
def runFamily (outcomes : List String) (predictorSets : List (String × List String))
    (fit : String → String → String → Option (ℚ × ℚ × ℚ)) : List RegRecord :=
  outcomes.flatMap fun o => predictorSets.flatMap fun fam =>
    fam.2.map fun t => ⟨o, fam.1, t, fit o fam.1 t⟩

/-! ## The `run_multivariate.py` script (embedded from src) -/

/-- A Python runtime error relevant to the script. -/
inductive PyErr where
  | attributeError
deriving DecidableEq

/-- A Python value stored in an argparse namespace attribute. -/
inductive PyVal where
  | str : String → PyVal
  | strs : List String → PyVal
  | bool : Bool → PyVal
deriving DecidableEq

/-- The command-line arguments accepted by `run_multivariate.py`. -/
structure MultArgs where
  data : String
  outdir : String
  rois : List String
  items : List String
  covars : List String
  residualize : Bool
  doCca : Bool

/-- The argparse namespace built by `parse_args` in `run_multivariate.py`
(lines 20-28): the flag `--do-cca` is stored under the attribute name
`do_cca`, because argparse replaces hyphens with underscores; no attribute
named `do` exists. -/
def multNamespace (a : MultArgs) : List (String × PyVal) :=
  [("data", .str a.data), ("outdir", .str a.outdir), ("rois", .strs a.rois),
   ("items", .strs a.items), ("covars", .strs a.covars),
   ("residualize", .bool a.residualize), ("do_cca", .bool a.doCca)]

/-- Python attribute access on a namespace object: looking up an attribute
that is not present raises `AttributeError`. -/
def nsGetattr (ns : List (String × PyVal)) (k : String) : Except PyErr PyVal :=
  match ns.find? fun kv => kv.1 == k with
  | some kv => .ok kv.2
  | none => .error .attributeError

/-- Embedding of `main` of `run_multivariate.py` (lines 19-73) at the
granularity of emitted outputs and the exception flow.  Library calls are
represented by the outputs they write (the logger writes `analysis.log`,
`run_pls` writes its outputs under the prefix `PLS`); the matrix
preparation of lines 34-46 is pure and emits nothing.  Line 54 reads
`args.do-cca`, which Python parses as the subtraction `args.do - cca`, so
it first evaluates the attribute access `args.do`; the result of `main` is
the list of outputs written before termination together with the error, if
any, that aborted it. -/
def runMultivariateMain (a : MultArgs) : List String × Option PyErr :=
  let ns := multNamespace a
  let outs := ["analysis.log", "PLS"]
  match nsGetattr ns "do" with
  | .error e => (outs, some e)
  | .ok _ =>
      (outs ++ ["CCA", "StructuralCovariance_ROI_corr.csv", "Network_Heatmap_ROIcorr.png",
        "StructuralCovariance_edges_FDR.csv", "Network_Graph.png",
        "Network_NodeMetrics.csv", "Network_GlobalMetrics.csv"], none)

/-! ## Row alignment in `run_multivariate.py` (lines 39-46, embedded from src) -/

/-- A row `i` of a value table is complete for `cols` when every listed
column holds a present value; this is the per-row condition of
`DataFrame.dropna()`. -/
def rowComplete (v : ℕ → String → Option ℚ) (cols : List String) (i : ℕ) : Bool :=
  cols.all fun c => (v i c).isSome

/-- Line 40, `roi_df = roi_df.dropna()`: the row labels of the ROI matrix
(`roiV` is the ROI matrix after the optional residualization of lines
35-39) that are complete in all ROI columns. -/
def roiIndex (idx : List ℕ) (roiV : ℕ → String → Option ℚ)
    (roiCols : List String) : List ℕ :=
  idx.filter (rowComplete roiV roiCols)

/-- Line 43, `items_df = df.loc[roi_df.index, args.items].dropna()`: of the
rows kept in the ROI matrix, those also complete in all item columns of the
original frame. -/
def itemsIndex (idx : List ℕ) (roiV : ℕ → String → Option ℚ) (roiCols : List String)
    (dataV : ℕ → String → Option ℚ) (itemCols : List String) : List ℕ :=
  (roiIndex idx roiV roiCols).filter (rowComplete dataV itemCols)

/-- Line 44, `common_idx = roi_df.index.intersection(items_df.index)`: the
row labels of the ROI matrix that also label rows of the item matrix; both
matrices are then re-indexed to exactly this shared index (lines 45-46). -/
def commonIndex (idx : List ℕ) (roiV : ℕ → String → Option ℚ) (roiCols : List String)
    (dataV : ℕ → String → Option ℚ) (itemCols : List String) : List ℕ :=
  (roiIndex idx roiV roiCols).filter fun i =>
    decide (i ∈ itemsIndex idx roiV roiCols dataV itemCols)

/-- A concrete frame index for the row-alignment witness. -/
def mvIdx : List ℕ := [0, 1]

/-- A concrete ROI value table: row 1 is missing in every ROI column. -/
def mvRoiV : ℕ → String → Option ℚ := fun i _ => if i = 0 then some 1 else none

/-- A concrete item value table with no missing values. -/
def mvDataV : ℕ → String → Option ℚ := fun _ _ => some 2

/-! ## Row selection in `run_followups.py` (line 33, embedded from src) -/

/-- Line 33, `use = df[[args.x, args.y] + ([args.group] if args.group else
[])].dropna()`: the rows of the frame that are complete in every listed
column, in order. -/
def selectComplete (df : List (String → Option ℚ)) (cols : List String) :
    List (String → Option ℚ) :=
  df.filter fun r => cols.all fun c => (r c).isSome

/-- A concrete row whose grouping column `g` is missing. -/
def fuRowA : String → Option ℚ := fun c => if c = "g" then none else some 1

/-- A concrete fully observed row. -/
def fuRowB : String → Option ℚ := fun _ => some 2

/-- A concrete two-row frame for `run_followups.py`. -/
def fuDf : List (String → Option ℚ) := [fuRowA, fuRowB]

/-! ## Network engine: structural covariance (spec 4.7) -/

/-- The mean of a data column. -/
def colMean (c : List ℚ) : ℚ :=
  c.sum / c.length

/-- The deviations of a data column from its mean. -/
def colDevs (c : List ℚ) : List ℚ :=
  c.map fun v => v - colMean c

/-- The sum of products of paired deviations of two equal-length columns
(the unnormalized covariance of the two columns). -/
def sxy (a b : List ℚ) : ℚ :=
  (List.zipWith (· * ·) (colDevs a) (colDevs b)).sum

/-- Modelled from the spec: the Pearson correlation of two columns,
`sxy / (sqrt sxx * sqrt syy)`.  A zero-variance column makes the
denominator zero; with the total-division convention of the embedding the
entry is then `0`, the degenerate (missing/NaN) value of spec section 7. -/
noncomputable def pearson (a b : List ℚ) : ℝ :=
  (sxy a b : ℝ) / (Real.sqrt (sxy a a) * Real.sqrt (sxy b b))

/-- Modelled from the spec: `structural_covariance`, the pairwise
correlation across all column pairs of the input matrix (given as its list
of measurement columns), one row and one column of the result per
measurement column. -/
noncomputable def structuralCovariance (cols : List (List ℚ)) : List (List ℝ) :=
  cols.map fun a => cols.map fun b => pearson a b

/-! ## Network engine: FDR-pruned edges (spec 4.7 with the 4.4 procedure) -/

/-- Modelled from the spec: the rank criterion of the FDR procedure.  Rank
`r` satisfies the criterion when the `r`-th smallest group p-value is at
most `(r / groupSize) * alpha`, expressed by counting: at least `r` of the
p-values are at most `r * alpha / groupSize`. -/
def bhOk (ps : List ℚ) (alpha : ℚ) (r : ℕ) : Bool :=
  decide (r ≤ bhRank ps (r * alpha / ps.length))

/-- Modelled from the spec: the largest rank satisfying the criterion, `0`
when no positive rank does. -/
def bhKmax (ps : List ℚ) (alpha : ℚ) : ℕ :=
  ((List.range (ps.length + 1)).filter (bhOk ps alpha)).foldr max 0

/-- Modelled from the spec: a record is marked significant exactly when its
position in the ascending sort is at or below the largest satisfying
rank. -/
def bhKeep (ps : List ℚ) (alpha : ℚ) (p : ℚ) : Bool :=
  decide (bhRank ps p ≤ bhKmax ps alpha)

/-- One edge record of `fdr_edges`: node pair, raw p-value, keep flag. -/
structure EdgeRec where
  a : ℕ
  b : ℕ
  p : ℚ
  keep : Bool
deriving DecidableEq

/-- All unique unordered pairs `(i, j)` with `i < j < k` of node indices:
no self-loops and no duplicated unordered pair. -/
def edgePairs (k : ℕ) : List (ℕ × ℕ) :=
  (List.range k).flatMap fun j => (List.range j).map fun i => (i, j)

/-- Modelled from the spec: the p-values of all unique unordered pairs;
`pv i j` is the parametric p-value of the off-diagonal correlation of
columns `i` and `j` given the sample size (abstracted as an input, since
the t-distribution tail probability has no closed rational form). -/
def edgePs (pv : ℕ → ℕ → ℚ) (k : ℕ) : List ℚ :=
  (edgePairs k).map fun ij => pv ij.1 ij.2

/-- Modelled from the spec: `fdr_edges` over a correlation matrix with `k`
measurement columns: one record per unique unordered pair, marked `keep`
by the FDR procedure applied across all pairs. -/
def fdrEdges (pv : ℕ → ℕ → ℚ) (k : ℕ) (alpha : ℚ) : List EdgeRec :=
  (edgePairs k).map fun ij =>
    ⟨ij.1, ij.2, pv ij.1 ij.2, bhKeep (edgePs pv k) alpha (pv ij.1 ij.2)⟩

/-- The rank-specific corrected threshold `(rank / groupSize) * alpha` of
one p-value within its group. -/
def ownThreshold (ps : List ℚ) (alpha : ℚ) (p : ℚ) : ℚ :=
  bhRank ps p * alpha / ps.length

/-- Concrete parametric p-values for a 3-node example correlation matrix. -/
def pvExample : ℕ → ℕ → ℚ := fun i j =>
  if i = 0 ∧ j = 1 then 3 / 100 else if i = 0 ∧ j = 2 then 1 / 25 else 1 / 20

end Neuro

namespace Neuro

/-! ## Theorems for claims C1, C3, C4 -/

/-- C1: under half-sum normalization the asymmetry value is missing iff the
left value is missing, the right value is missing, or the half-sum
denominator is exactly zero; otherwise it equals `(L - R)` divided by the
half-sum of `L` and `R`; in particular `L = 6`, `R = 4` yields `2/5 = 0.4`.
Division by zero never occurs: the zero-denominator case is mapped to a
missing value before any division. -/
theorem c1_ai_halfnorm (row : String → Option ℚ) (lk rk : String) :
    (aiHalfnorm (row lk) (row rk) = none ↔
      row lk = none ∨ row rk = none ∨
        ∃ a b, row lk = some a ∧ row rk = some b ∧ (a + b) / 2 = 0) ∧
    (∀ a b, row lk = some a → row rk = some b → (a + b) / 2 ≠ 0 →
      aiHalfnorm (row lk) (row rk) = some ((a - b) / ((a + b) / 2))) ∧
    aiHalfnorm (some 6) (some 4) = some (2 / 5) := by
  refine ⟨?_, ?_, ?_⟩
  · cases hl : row lk with
    | none => simp [aiHalfnorm]
    | some a =>
      cases hr : row rk with
      | none => simp [aiHalfnorm]
      | some b =>
        by_cases hz : (a + b) / 2 = 0
        · simp [aiHalfnorm, hz]
          linarith
        · simp [aiHalfnorm, hz]
          intro h
          exact hz (by rw [h]; norm_num)
  · intro a b ha hb hz
    rw [ha, hb]
    simp [aiHalfnorm, hz]
  · norm_num [aiHalfnorm]

/-- Witness for C1 at a concrete row: left column 6, right column 4. -/
theorem c1_ai_halfnorm_witness :
    aiHalfnorm ((fun c => if c = "L" then some 6 else some 4) "L")
        ((fun c => if c = "L" then some 6 else some 4) "R") =
      some ((6 - 4) / ((6 + 4) / 2)) :=
  (c1_ai_halfnorm (fun c => if c = "L" then some 6 else some 4) "L" "R").2.1 6 4
    (by simp) (by simp) (by norm_num)

/-- C3: the permutation-test p-value equals the smoothed fraction of permuted
statistics at least as extreme as the observed correlation, and always lies
in the half-open interval `(0, 1]`, never exactly `0`. -/
theorem c3_perm_pvalue_interval (rObs : ℚ) (nullStats : List ℚ) :
    permPValue rObs nullStats =
      ((nullStats.countP fun s => |rObs| ≤ |s|) + 1 : ℚ) / (nullStats.length + 1) ∧
    0 < permPValue rObs nullStats ∧ permPValue rObs nullStats ≤ 1 := by
  have hden : (0 : ℚ) < (nullStats.length : ℚ) + 1 := by positivity
  refine ⟨rfl, ?_, ?_⟩
  · apply div_pos _ hden
    positivity
  · rw [permPValue, div_le_one hden]
    have hc : (nullStats.countP fun s => |rObs| ≤ |s|) ≤ nullStats.length :=
      List.countP_le_length _
    exact_mod_cast Nat.add_le_add_right hc 1

/-- C4: the composite value of a row is missing iff every per-pair asymmetry
value of the row is missing; otherwise it is the mean of the present values
(sum of present values divided by their count); with exactly one present
value it equals that value. -/
theorem c4_composite_mean (row : String → Option ℚ) (pairs : List (String × String)) :
    (compositeAI (aiRow row pairs) = none ↔ ∀ v ∈ aiRow row pairs, v = none) ∧
    ((aiRow row pairs).filterMap id ≠ [] →
      compositeAI (aiRow row pairs) =
        some (((aiRow row pairs).filterMap id).sum / ((aiRow row pairs).filterMap id).length)) ∧
    (∀ a, (aiRow row pairs).filterMap id = [a] → compositeAI (aiRow row pairs) = some a) := by
  generalize aiRow row pairs = vals
  refine ⟨?_, ?_, ?_⟩
  · constructor
    · intro h v hv
      rw [compositeAI] at h
      by_cases he : (vals.filterMap id).isEmpty
      · rw [List.isEmpty_iff] at he
        have := List.filterMap_eq_nil_iff.mp he v hv
        simpa using this
      · simp [he] at h
    · intro h
      have he : vals.filterMap id = [] := List.filterMap_eq_nil_iff.mpr (by
        intro a ha
        simpa using h a ha)
      simp [compositeAI, he]
  · intro hne
    have he : (vals.filterMap id).isEmpty = false := by
      simpa [List.isEmpty_iff] using hne
    simp [compositeAI, he]
  · intro a ha
    simp [compositeAI, ha]

/-- Folding `min` starting from `1` never exceeds `1`. -/
theorem foldr_min_le_one (l : List ℚ) : l.foldr min 1 ≤ 1 := by
  induction l with
  | nil => exact le_refl 1
  | cons a l ih => exact le_trans (min_le_right a (l.foldr min 1)) ih

/-- Folding `min` starting from `1` is at most every element of the list. -/
theorem foldr_min_le_mem (l : List ℚ) (x : ℚ) (hx : x ∈ l) : l.foldr min 1 ≤ x := by
  induction l with
  | nil => cases hx
  | cons a l ih =>
    rcases List.mem_cons.mp hx with h | h
    · exact h ▸ min_le_left a (l.foldr min 1)
    · exact le_trans (min_le_right a (l.foldr min 1)) (ih h)

/-- Folding `min` starting from `1` yields `1` or an element of the list. -/
theorem foldr_min_eq_or_mem (l : List ℚ) : l.foldr min 1 = 1 ∨ l.foldr min 1 ∈ l := by
  induction l with
  | nil => exact Or.inl rfl
  | cons a l ih =>
    rw [List.foldr_cons]
    rcases min_choice a (l.foldr min 1) with h | h
    · rw [h]
      exact Or.inr (List.mem_cons_self a l)
    · rw [h]
      rcases ih with h1 | h1
      · exact Or.inl h1
      · exact Or.inr (List.mem_cons_of_mem a h1)

/-- The step-up q-value is monotone in the p-value over a fixed group. -/
theorem qvalue_mono (ps : List ℚ) {p₁ p₂ : ℚ} (h : p₁ ≤ p₂) :
    qvalue ps p₁ ≤ qvalue ps p₂ := by
  rcases foldr_min_eq_or_mem ((ps.filter fun r => p₂ ≤ r).map
      fun r => r * ps.length / bhRank ps r) with h2 | h2
  · rw [qvalue, qvalue, h2]
    exact foldr_min_le_one _
  · rcases List.mem_map.mp h2 with ⟨r, hr, hval⟩
    have hr1 : r ∈ ps.filter fun r => p₁ ≤ r := by
      rcases List.mem_filter.mp hr with ⟨hmem, hle⟩
      exact List.mem_filter.mpr ⟨hmem, by
        simp only [decide_eq_true_eq] at hle ⊢
        exact le_trans h hle⟩
    rw [qvalue, qvalue, ← hval]
    exact foldr_min_le_mem _ _ (List.mem_map_of_mem _ hr1)

/-- C2: the FDR correction of `add_corrections` is monotone within a
correction group: for two corrected records with the same (Outcome, Model)
keys whose present p-values satisfy `p1 < p2`, the present q-values satisfy
`q1 ≤ q2`. -/
theorem c2_fdr_monotone (rs : List PRec) (r₁ r₂ : QRec)
    (h₁ : r₁ ∈ addCorrections rs) (h₂ : r₂ ∈ addCorrections rs)
    (ho : r₁.outcome = r₂.outcome) (hm : r₁.model = r₂.model)
    (p₁ p₂ : ℚ) (hp₁ : r₁.p = some p₁) (hp₂ : r₂.p = some p₂) (hlt : p₁ < p₂)
    (q₁ q₂ : ℚ) (hq₁ : r₁.q = some q₁) (hq₂ : r₂.q = some q₂) :
    q₁ ≤ q₂ := by
  rcases List.mem_map.mp h₁ with ⟨s₁, _, hs₁⟩
  rcases List.mem_map.mp h₂ with ⟨s₂, _, hs₂⟩
  have e₁ : q₁ = qvalue (groupPs rs r₁.outcome r₁.model) p₁ := by
    subst hs₁
    simp only at hp₁ hq₁ ⊢
    rw [hp₁] at hq₁
    simpa using hq₁.symm
  have e₂ : q₂ = qvalue (groupPs rs r₂.outcome r₂.model) p₂ := by
    subst hs₂
    simp only at hp₂ hq₂ ⊢
    rw [hp₂] at hq₂
    simpa using hq₂.symm
  rw [e₁, e₂, ho, hm]
  exact qvalue_mono _ (le_of_lt hlt)

/-- Witness for C2 on the two-record group: `p = 1/100` receives a q-value
at most that of `p = 1/10`. -/
theorem c2_fdr_monotone_witness :
    qvalue (groupPs fdrExample "o" "m") (1 / 100) ≤
      qvalue (groupPs fdrExample "o" "m") (1 / 10) :=
  c2_fdr_monotone fdrExample
    ⟨"o", "m", some (1 / 100), some (qvalue (groupPs fdrExample "o" "m") (1 / 100))⟩
    ⟨"o", "m", some (1 / 10), some (qvalue (groupPs fdrExample "o" "m") (1 / 10))⟩
    (by simp [addCorrections, fdrExample]) (by simp [addCorrections, fdrExample])
    rfl rfl (1 / 100) (1 / 10) rfl rfl (by norm_num) _ _ rfl rfl

/-- C5: `run_family` always returns one record for every
(outcome × predictor-set × predictor) combination: the output has exactly
one record per combination (its length is the number of combinations, and
every combination is represented by a record carrying that combination and
the outcome of its fit), and a numerically failing fit yields a record with
missing statistics instead of an exception aborting the batch. -/
theorem c5_run_family_total (outcomes : List String)
    (predictorSets : List (String × List String))
    (fit : String → String → String → Option (ℚ × ℚ × ℚ)) :
    (runFamily outcomes predictorSets fit).length =
      outcomes.length * (predictorSets.map fun fam => fam.2.length).sum ∧
    ∀ o ∈ outcomes, ∀ fam ∈ predictorSets, ∀ t ∈ fam.2,
      ∃ rec ∈ runFamily outcomes predictorSets fit,
        rec.outcome = o ∧ rec.model = fam.1 ∧ rec.target = t ∧ rec.stats = fit o fam.1 t := by
  constructor
  · simp only [runFamily, List.length_flatMap, Function.comp_def, List.length_map]
    simp [List.map_const]
  · intro o ho fam hfam t ht
    refine ⟨⟨o, fam.1, t, fit o fam.1 t⟩, ?_, rfl, rfl, rfl, rfl⟩
    exact List.mem_flatMap.mpr ⟨o, ho,
      List.mem_flatMap.mpr ⟨fam, hfam, List.mem_map.mpr ⟨t, ht, rfl⟩⟩⟩

/-- Witness for C5: one outcome, one family with one predictor, and a fit
that fails numerically everywhere still yields a record for the
combination, with missing statistics. -/
theorem c5_run_family_total_witness :
    ∃ rec ∈ runFamily ["y"] [("Asymmetry", ["AI"])] (fun _ _ _ => none),
      rec.outcome = "y" ∧ rec.model = "Asymmetry" ∧ rec.target = "AI" ∧ rec.stats = none :=
  (c5_run_family_total ["y"] [("Asymmetry", ["AI"])] (fun _ _ _ => none)).2
    "y" (by simp) ("Asymmetry", ["AI"]) (by simp) "AI" (by simp)

/-- C6: for every input to the `main` of `run_multivariate.py`, evaluating
`args.do-cca` at line 54 raises `AttributeError` (argparse stores `--do-cca`
as attribute `do_cca`, so the attribute `do` does not exist), regardless of
whether `--do-cca` was passed; consequently the structural-covariance,
FDR-edge, graph and metric outputs after that line are never produced. -/
theorem c6_do_cca_attribute_error (a : MultArgs) :
    runMultivariateMain a = (["analysis.log", "PLS"], some PyErr.attributeError) ∧
    "StructuralCovariance_ROI_corr.csv" ∉ (runMultivariateMain a).1 ∧
    "StructuralCovariance_edges_FDR.csv" ∉ (runMultivariateMain a).1 ∧
    "Network_Graph.png" ∉ (runMultivariateMain a).1 ∧
    "Network_NodeMetrics.csv" ∉ (runMultivariateMain a).1 ∧
    "Network_GlobalMetrics.csv" ∉ (runMultivariateMain a).1 := by
  have h : runMultivariateMain a = (["analysis.log", "PLS"], some PyErr.attributeError) := rfl
  refine ⟨h, ?_, ?_, ?_, ?_, ?_⟩ <;> rw [h] <;> decide

/-- Witness for C6 at a concrete invocation that does pass `--do-cca`. -/
theorem c6_do_cca_attribute_error_witness :
    runMultivariateMain ⟨"data.csv", "out", ["L1", "R1"], ["i1"], [], true, true⟩ =
      (["analysis.log", "PLS"], some PyErr.attributeError) :=
  (c6_do_cca_attribute_error ⟨"data.csv", "out", ["L1", "R1"], ["i1"], [], true, true⟩).1

/-- C9: the common index to which `run_multivariate.py` re-indexes the two
matrices passed to `run_pls` (and `run_cca`) equals the set of frame rows
complete both in the ROI matrix (after optional residualization) and in the
item columns, and every row of the common index has no missing value in
either matrix. -/
theorem c9_common_index (idx : List ℕ) (roiV dataV : ℕ → String → Option ℚ)
    (roiCols itemCols : List String) :
    commonIndex idx roiV roiCols dataV itemCols =
      idx.filter (fun i => rowComplete roiV roiCols i && rowComplete dataV itemCols i) ∧
    ∀ i ∈ commonIndex idx roiV roiCols dataV itemCols,
      (∀ c ∈ roiCols, (roiV i c).isSome) ∧ ∀ c ∈ itemCols, (dataV i c).isSome := by
  have h1 : commonIndex idx roiV roiCols dataV itemCols =
      idx.filter (fun i => rowComplete roiV roiCols i && rowComplete dataV itemCols i) := by
    rw [commonIndex]
    have h2 : (roiIndex idx roiV roiCols).filter
        (fun i => decide (i ∈ itemsIndex idx roiV roiCols dataV itemCols)) =
        (roiIndex idx roiV roiCols).filter (rowComplete dataV itemCols) := by
      apply List.filter_congr
      intro i hi
      by_cases hc : rowComplete dataV itemCols i = true
      · rw [hc]
        exact decide_eq_true (List.mem_filter.mpr ⟨hi, hc⟩)
      · rw [Bool.eq_false_iff.mpr hc]
        exact decide_eq_false fun hmem => hc (List.mem_filter.mp hmem).2
    rw [h2, roiIndex, List.filter_filter]
    apply List.filter_congr
    intro i _
    exact Bool.and_comm _ _
  refine ⟨h1, ?_⟩
  intro i hi
  rw [h1] at hi
  rcases List.mem_filter.mp hi with ⟨_, hb⟩
  obtain ⟨hroi, hitem⟩ : rowComplete roiV roiCols i = true ∧
      rowComplete dataV itemCols i = true := by simpa using hb
  constructor
  · intro c hc
    exact List.all_eq_true.mp hroi c hc
  · intro c hc
    exact List.all_eq_true.mp hitem c hc

/-- Witness for C9: on the concrete frame with rows 0 and 1 where row 1 is
missing in the ROI columns, row 0 is in the common index and is complete in
both matrices. -/
theorem c9_common_index_witness :
    (∀ c ∈ ["l"], (mvRoiV 0 c).isSome) ∧ ∀ c ∈ ["i"], (mvDataV 0 c).isSome :=
  (c9_common_index mvIdx mvRoiV mvDataV ["l"] ["i"]).2 0 (by decide)

/-- C10: in `run_followups.py` with a grouping column supplied, the
complete-case set is the rows non-missing in x, y and the group column, so
rows with a missing group value are dropped before x and y are extracted
for all four robustness computations; the extracted vectors can differ from
a run without the group argument on the same data. -/
theorem c10_group_dropna (df : List (String → Option ℚ)) (x y g : String) :
    (∀ r, r ∈ selectComplete df [x, y, g] ↔
      r ∈ df ∧ (r x).isSome ∧ (r y).isSome ∧ (r g).isSome) ∧
    (selectComplete fuDf ["x", "y", "g"]).map (fun r => r "x") ≠
      (selectComplete fuDf ["x", "y"]).map (fun r => r "x") := by
  constructor
  · intro r
    simp [selectComplete, List.mem_filter, and_assoc]
  · decide

/-- Witness for C10: the concrete two-row frame, where the vectors fed to
the robustness battery with and without the group column differ. -/
theorem c10_group_dropna_witness :
    (selectComplete fuDf ["x", "y", "g"]).map (fun r => r "x") ≠
      (selectComplete fuDf ["x", "y"]).map (fun r => r "x") :=
  (c10_group_dropna fuDf "x" "y" "g").2

/-- The unnormalized covariance is symmetric in its two columns. -/
theorem sxy_comm (a b : List ℚ) : sxy a b = sxy b a := by
  rw [sxy, sxy, List.zipWith_comm_of_comm _ mul_comm]

/-- The unnormalized variance of a column is nonnegative. -/
theorem sxy_self_nonneg (a : List ℚ) : 0 ≤ sxy a a := by
  rw [sxy, List.zipWith_same]
  apply List.sum_nonneg
  intro x hx
  rcases List.mem_map.mp hx with ⟨t, _, ht⟩
  rw [← ht]
  exact mul_self_nonneg t

/-- Pearson correlation is symmetric. -/
theorem pearson_comm (a b : List ℚ) : pearson a b = pearson b a := by
  rw [pearson, pearson, sxy_comm a b, mul_comm]

/-- Pearson correlation of a column of nonzero variance with itself is 1. -/
theorem pearson_self (a : List ℚ) (h : sxy a a ≠ 0) : pearson a a = 1 := by
  rw [pearson, Real.mul_self_sqrt (by exact_mod_cast sxy_self_nonneg a)]
  rw [div_self (by exact_mod_cast h)]

/-- Every in-range entry of the structural covariance matrix is the Pearson
correlation of the corresponding pair of columns. -/
theorem structCov_entry (cols : List (List ℚ)) (i j : ℕ)
    (hi : i < cols.length) (hj : j < cols.length) :
    ((structuralCovariance cols).getD i []).getD j 0 =
      pearson (cols.getD i []) (cols.getD j []) := by
  rw [structuralCovariance]
  have hmap : (List.map (fun a => List.map (fun b => pearson a b) cols) cols).getD i [] =
      List.map (fun b => pearson (cols.getD i []) b) cols := by
    rw [List.getD_eq_getElem _ _ (by simpa using hi), List.getElem_map,
      List.getD_eq_getElem _ _ hi]
  rw [hmap]
  rw [List.getD_eq_getElem _ _ (by simpa using hj), List.getElem_map,
    List.getD_eq_getElem _ _ hj]

/-- C7 (amended): for every input matrix with at least 2 columns and at
least 2 rows, the matrix returned by `structural_covariance` has one row
and one column per measurement column and is symmetric; every diagonal
entry whose column has nonzero variance equals 1 (a zero-variance column
is a numerical degeneracy and its diagonal entry is the degenerate value,
not 1). -/
theorem c7_structural_covariance (cols : List (List ℚ))
    (_hc : 2 ≤ cols.length) (_hr : ∀ c ∈ cols, 2 ≤ c.length) :
    ((structuralCovariance cols).length = cols.length ∧
      ∀ row ∈ structuralCovariance cols, row.length = cols.length) ∧
    (∀ i j, i < cols.length → j < cols.length →
      ((structuralCovariance cols).getD i []).getD j 0 =
        ((structuralCovariance cols).getD j []).getD i 0) ∧
    ∀ i, i < cols.length → sxy (cols.getD i []) (cols.getD i []) ≠ 0 →
      ((structuralCovariance cols).getD i []).getD i 0 = 1 := by
  refine ⟨⟨?_, ?_⟩, ?_, ?_⟩
  · simp [structuralCovariance]
  · intro row hrow
    rcases List.mem_map.mp hrow with ⟨a, _, ha⟩
    rw [← ha]
    simp
  · intro i j hi hj
    rw [structCov_entry cols i j hi hj, structCov_entry cols j i hj hi, pearson_comm]
  · intro i hi hvar
    rw [structCov_entry cols i i hi hi, pearson_self _ hvar]

/-- C7 counterexample: the 2-column, 2-row matrix whose second column
`[5, 5]` is constant is inside the scope of the claim, but the diagonal
entry of that column is the degenerate value 0 (Pearson correlation of a
zero-variance column with itself is 0/0), not 1. -/
theorem c7_diag_counterexample :
    2 ≤ ([[1, 2], [5, 5]] : List (List ℚ)).length ∧
    2 ≤ ([1, 2] : List ℚ).length ∧
    2 ≤ ([5, 5] : List ℚ).length ∧
    ((structuralCovariance [[1, 2], [5, 5]]).getD 1 []).getD 1 0 = 0 ∧
    ((structuralCovariance [[1, 2], [5, 5]]).getD 1 []).getD 1 0 ≠ 1 := by
  have hvar : sxy [(5 : ℚ), 5] [(5 : ℚ), 5] = 0 := by
    norm_num [sxy, colDevs, colMean]
  have hent : ((structuralCovariance [[1, 2], [5, 5]]).getD 1 []).getD 1 0 =
      pearson [(5 : ℚ), 5] [(5 : ℚ), 5] := by
    have h := structCov_entry [[1, 2], [5, 5]] 1 1 (by norm_num) (by norm_num)
    simpa using h
  have hp : pearson [(5 : ℚ), 5] [(5 : ℚ), 5] = 0 := by
    rw [pearson, hvar]
    norm_num
  refine ⟨by norm_num, by norm_num, by norm_num, ?_, ?_⟩
  · rw [hent, hp]
  · rw [hent, hp]
    norm_num

/-- Witness for C7 at the 2-by-2 matrix with two nonconstant columns: the
diagonal entry of the first column is 1. -/
theorem c7_structural_covariance_witness :
    ((structuralCovariance [[1, 2], [3, 5]]).getD 0 []).getD 0 0 = 1 :=
  (c7_structural_covariance [[1, 2], [3, 5]] (by norm_num)
      (by
        intro c hc
        rcases List.mem_cons.mp hc with h | h
        · rw [h]; norm_num
        · rcases List.mem_cons.mp h with h2 | h2
          · rw [h2]; norm_num
          · cases h2)).2.2 0 (by norm_num)
    (by norm_num [sxy, colDevs, colMean])

/-- Folding `max` starting from `0` yields `0` or an element of the list. -/
theorem foldr_max_eq_or_mem (l : List ℕ) : l.foldr max 0 = 0 ∨ l.foldr max 0 ∈ l := by
  induction l with
  | nil => exact Or.inl rfl
  | cons a l ih =>
    rw [List.foldr_cons]
    rcases max_choice a (l.foldr max 0) with h | h
    · rw [h]
      exact Or.inr (List.mem_cons_self a l)
    · rw [h]
      rcases ih with h1 | h1
      · exact Or.inl h1
      · exact Or.inr (List.mem_cons_of_mem a h1)

/-- Counting values at most `p` splits into those below `p` and those equal
to `p`. -/
theorem countP_le_split (ps : List ℚ) (p : ℚ) :
    (ps.countP fun r => r ≤ p) =
      (ps.countP fun r => r < p) + ps.countP fun r => r = p := by
  induction ps with
  | nil => rfl
  | cons a l ih =>
    simp only [List.countP_cons]
    rcases lt_trichotomy a p with h | h | h
    · have h1 : a ≤ p := le_of_lt h
      have h2 : ¬a = p := ne_of_lt h
      simp [h, h1, h2]
      omega
    · subst h
      simp
      omega
    · have h1 : ¬a ≤ p := not_le.mpr h
      have h2 : ¬a < p := not_lt.mpr (le_of_lt h)
      have h3 : ¬a = p := (ne_of_lt h).symm
      simp [h1, h2, h3]
      omega

/-- A kept p-value is at most the corrected threshold of the largest
satisfying rank. -/
theorem bhKeep_le_threshold (ps : List ℚ) (alpha : ℚ) (p : ℚ) (hp : p ∈ ps)
    (hk : bhKeep ps alpha p = true) :
    p ≤ bhKmax ps alpha * alpha / ps.length := by
  have hk2 : bhRank ps p ≤ bhKmax ps alpha := of_decide_eq_true hk
  have hrank1 : 1 ≤ bhRank ps p := by
    have h : 0 < ps.countP fun r => r ≤ p :=
      List.countP_pos_iff.mpr ⟨p, hp, decide_eq_true le_rfl⟩
    rw [bhRank]
    omega
  have hK1 : 1 ≤ bhKmax ps alpha := le_trans hrank1 hk2
  have hOk : bhOk ps alpha (bhKmax ps alpha) = true := by
    rcases foldr_max_eq_or_mem
        ((List.range (ps.length + 1)).filter (bhOk ps alpha)) with h0 | hm
    · exfalso
      have hz : bhKmax ps alpha = 0 := by
        rw [bhKmax]
        exact h0
      omega
    · exact (List.mem_filter.mp hm).2
  have hcnt : bhKmax ps alpha ≤
      bhRank ps (bhKmax ps alpha * alpha / ps.length) := of_decide_eq_true hOk
  by_contra hgt
  push_neg at hgt
  have hmono : bhRank ps (bhKmax ps alpha * alpha / ps.length) ≤
      ps.countP fun r => r < p := by
    rw [bhRank]
    apply List.countP_mono_left
    intro a _ ha
    exact decide_eq_true (lt_of_le_of_lt (of_decide_eq_true ha) hgt)
  have hsplit := countP_le_split ps p
  have hone : 0 < ps.countP fun r => r = p :=
    List.countP_pos_iff.mpr ⟨p, hp, decide_eq_true rfl⟩
  rw [bhRank] at hk2
  omega

/-- Every pair enumerated by `edgePairs` is strictly ordered. -/
theorem edgePairs_lt (k : ℕ) (ij : ℕ × ℕ) (h : ij ∈ edgePairs k) : ij.1 < ij.2 := by
  rw [edgePairs] at h
  rcases List.mem_flatMap.mp h with ⟨j, _, hj⟩
  rcases List.mem_map.mp hj with ⟨i, hi, hee⟩
  rw [← hee]
  exact List.mem_range.mp hi

/-- The enumeration of unique unordered pairs has no duplicates. -/
theorem edgePairs_nodup (k : ℕ) : (edgePairs k).Nodup := by
  rw [edgePairs, List.nodup_flatMap]
  constructor
  · intro j _
    exact List.Nodup.map (fun a b hab => congrArg Prod.fst hab) (List.nodup_range j)
  · have hp : (List.range k).Pairwise (· ≠ ·) := List.nodup_range k
    apply List.Pairwise.imp ?_ hp
    intro a b hab
    intro x hxa hxb
    rcases List.mem_map.mp hxa with ⟨i1, _, h1⟩
    rcases List.mem_map.mp hxb with ⟨i2, _, h2⟩
    exact hab (congrArg Prod.snd (h1.trans h2.symm))

/-- C8 (amended): every edge of `fdr_edges` joins two distinct nodes
`a < b` with no unordered pair duplicated, and every edge with
`keep = true` has a raw p-value at most the corrected threshold of the
largest satisfying rank, `kmax * alpha / groupSize`.  The step-up
procedure can keep an edge whose raw p-value exceeds its own rank-specific
threshold `rank * alpha / groupSize`, but never one above the selected
threshold. -/
theorem c8_fdr_edges (pv : ℕ → ℕ → ℚ) (k : ℕ) (alpha : ℚ) :
    (∀ e ∈ fdrEdges pv k alpha, e.keep = true →
      e.p ≤ bhKmax (edgePs pv k) alpha * alpha / (edgePs pv k).length) ∧
    (∀ e ∈ fdrEdges pv k alpha, e.a < e.b) ∧
    ((fdrEdges pv k alpha).map fun e => (e.a, e.b)).Nodup := by
  refine ⟨?_, ?_, ?_⟩
  · intro e he hkeep
    rcases List.mem_map.mp he with ⟨ij, hij, hee⟩
    subst hee
    exact bhKeep_le_threshold _ _ _ (List.mem_map.mpr ⟨ij, hij, rfl⟩) hkeep
  · intro e he
    rcases List.mem_map.mp he with ⟨ij, hij, hee⟩
    subst hee
    exact edgePairs_lt k ij hij
  · have hmm : ((fdrEdges pv k alpha).map fun e => (e.a, e.b)) = edgePairs k := by
      rw [fdrEdges, List.map_map]
      show (edgePairs k).map (fun ij => ij) = edgePairs k
      simp
    rw [hmm]
    exact edgePairs_nodup k

/-- The p-values of the 3-node example, in pair enumeration order. -/
theorem edgePs_pvExample : edgePs pvExample 3 = [3 / 100, 1 / 25, 1 / 20] := by
  have hpairs : edgePairs 3 = [(0, 1), (0, 2), (1, 2)] := rfl
  rw [edgePs, hpairs]
  norm_num [pvExample]

/-- The rank of the smallest example p-value is 1. -/
theorem bhRank_pvExample : bhRank [3 / 100, 1 / 25, 1 / 20] (3 / 100) = 1 := by
  norm_num [bhRank, List.countP_cons, List.countP_nil]

/-- The largest satisfying rank of the example at alpha 1/20 is 3. -/
theorem bhKmax_pvExample : bhKmax [3 / 100, 1 / 25, 1 / 20] (1 / 20) = 3 := by
  have h0 : bhOk [3 / 100, 1 / 25, 1 / 20] (1 / 20) 0 = true := by
    norm_num [bhOk, bhRank, List.countP_cons, List.countP_nil]
  have h1 : bhOk [3 / 100, 1 / 25, 1 / 20] (1 / 20) 1 = false := by
    norm_num [bhOk, bhRank, List.countP_cons, List.countP_nil]
  have h2 : bhOk [3 / 100, 1 / 25, 1 / 20] (1 / 20) 2 = false := by
    norm_num [bhOk, bhRank, List.countP_cons, List.countP_nil]
  have h3 : bhOk [3 / 100, 1 / 25, 1 / 20] (1 / 20) 3 = true := by
    norm_num [bhOk, bhRank, List.countP_cons, List.countP_nil]
  have hr4 : List.range (([3 / 100, 1 / 25, (1 : ℚ) / 20].length) + 1) = [0, 1, 2, 3] := rfl
  rw [bhKmax, hr4]
  rw [List.filter_cons_of_pos, List.filter_cons_of_neg, List.filter_cons_of_neg,
    List.filter_cons_of_pos, List.filter_nil]
  · rfl
  · exact h3
  · rw [h2]
    exact Bool.false_ne_true
  · rw [h1]
    exact Bool.false_ne_true
  · exact h0

/-- The example edge (0, 1) survives the FDR procedure. -/
theorem bhKeep_pvExample : bhKeep (edgePs pvExample 3) (1 / 20) (3 / 100) = true := by
  rw [edgePs_pvExample, bhKeep, bhRank_pvExample, bhKmax_pvExample]
  rfl

/-- The example edge (0, 1), with keep flag true, is in the edge set. -/
theorem pvExample_edge_mem :
    (⟨0, 1, 3 / 100, true⟩ : EdgeRec) ∈ fdrEdges pvExample 3 (1 / 20) := by
  rw [fdrEdges]
  apply List.mem_map.mpr
  refine ⟨(0, 1), ?_, ?_⟩
  · rw [show edgePairs 3 = [(0, 1), (0, 2), (1, 2)] from rfl]
    simp
  · have hpv : pvExample 0 1 = 3 / 100 := by norm_num [pvExample]
    rw [hpv, bhKeep_pvExample]

/-- C8 counterexample: in the 3-node example at alpha 1/20 the step-up
procedure keeps all three edges, and the kept edge (0, 1) with raw p-value
3/100 exceeds its own rank-specific corrected threshold 1/60. -/
theorem c8_keep_counterexample :
    (⟨0, 1, 3 / 100, true⟩ : EdgeRec) ∈ fdrEdges pvExample 3 (1 / 20) ∧
    (⟨0, 1, 3 / 100, true⟩ : EdgeRec).keep = true ∧
    ownThreshold (edgePs pvExample 3) (1 / 20) (3 / 100) < 3 / 100 := by
  refine ⟨pvExample_edge_mem, rfl, ?_⟩
  rw [ownThreshold, edgePs_pvExample, bhRank_pvExample]
  norm_num

/-- Witness for C8 on the 3-node example: the raw p-value 3/100 of the kept
edge (0, 1) is at most the selected corrected threshold. -/
theorem c8_fdr_edges_witness :
    (3 / 100 : ℚ) ≤ bhKmax (edgePs pvExample 3) (1 / 20) * (1 / 20) / (edgePs pvExample 3).length :=
  (c8_fdr_edges pvExample 3 (1 / 20)).1 ⟨0, 1, 3 / 100, true⟩ pvExample_edge_mem rfl

/-- Witness for C4: a row over one pair with left 6 and right 4 has a single
present pair value `2/5`, and the composite equals it. -/
theorem c4_composite_mean_witness :
    compositeAI (aiRow (fun c => if c = "L" then some 6 else some 4) [("L", "R")]) =
      some (2 / 5) :=
  (c4_composite_mean (fun c => if c = "L" then some 6 else some 4) [("L", "R")]).2.2 (2 / 5)
    (by
      have h1 : aiHalfnorm (some 6) (some 4) = some (2 / 5) := by norm_num [aiHalfnorm]
      simp [aiRow, h1])

end Neuro
